import Mathlib

/-!
Shallow embedding of the `xhttp` HTTP client facade (package `http`:
`constant.go`, `option.go`, `http.go`).

The request-building phase (option application, pre-request hook chain,
request construction) and the response-decoding phase are embedded as pure
Lean functions.  Network dispatch itself is external; the pipeline is modelled
up to the outbound `Request` value that would be handed to the transport, and
the decode phase is modelled as a function of the response body text.

Modelling conventions:
- Go maps are association lists with replace-on-insert (`mapInsert`); a `nil`
  Go map is `Option.none` where the distinction is observable.
- Go `interface\x7b\x7d` values stored in parameter maps are the inductive `GoVal`.
- Hooks mutate `*parameter` in place in Go; here a hook is a function
  `ParamCore → Except String ParamCore` (mutations made by a hook that later
  fails inside the same hook are not retained, which no claim observes).
- `encoding/json`, `net/url` and `reflect` are external collaborators; they
  are modelled by executable functions faithful to their documented behaviour
  on the value shapes this package uses (integers and escape-free strings).
-/

namespace XHttp

/-- Method mirrors `type Method string` from `constant.go`. -/
abbrev Method := String

/-- MethodPost mirrors the constant from `constant.go`. -/
def MethodPost : Method := "POST"

/-- MethodGet mirrors the constant from `constant.go`. -/
def MethodGet : Method := "GET"

/-- MethodPut mirrors the constant from `constant.go`. -/
def MethodPut : Method := "PUT"

/-- MethodDelete mirrors the constant from `constant.go`. -/
def MethodDelete : Method := "DELETE"

/-- Duration in nanoseconds, mirroring Go `time.Duration`. -/
abbrev Duration := Int

/-- The `time.Second` unit. -/
def timeSecond : Duration := 1000000000

/-- DefaultTimeOut mirrors `DefaultTimeOut = 3 * time.Second` from `constant.go`. -/
def DefaultTimeOut : Duration := 3 * timeSecond

/-- GoVal models the `interface\x7b\x7d` values stored in the parameter map. -/
inductive GoVal where
  | str (s : String)
  | int (n : Int)
  | bool (b : Bool)
  deriving DecidableEq

/-- Modelled from the spec: the string-conversion helper `transform.Strval`
(package `util/transform`, whose source is not under `src/`); per the spec it
renders a parameter value as its string form. -/
def Strval : GoVal → String
  | .str s => s
  | .int n => toString n
  | .bool b => cond b "true" "false"

/-- Byte-wise strict order on character lists (Go string `<`). -/
def strLtB : List Char → List Char → Bool
  | [], [] => false
  | [], _ :: _ => true
  | _ :: _, [] => false
  | a :: as, b :: bs =>
    if a.toNat < b.toNat then true
    else if b.toNat < a.toNat then false
    else strLtB as bs

/-- Reflexive byte-wise order on strings, used for key sorting. -/
def keyLe (a b : String) : Bool := !(strLtB b.toList a.toList)

/-- Insert a key/value pair into a list sorted by key (stable). -/
def insertPair {α : Type} (p : String × α) : List (String × α) → List (String × α)
  | [] => [p]
  | q :: qs => if keyLe p.1 q.1 then p :: q :: qs else q :: insertPair p qs

/-- Stable insertion sort by key; models the sorted-key iteration that
`net/url.Values.Encode` and `encoding/json` perform over Go maps. -/
def sortPairs {α : Type} : List (String × α) → List (String × α)
  | [] => []
  | p :: ps => insertPair p (sortPairs ps)

/-- Go map write `m[k] = v`: replace the binding if present, else append. -/
def mapInsert {α : Type} (k : String) (v : α) : List (String × α) → List (String × α)
  | [] => [(k, v)]
  | q :: qs => if k = q.1 then (k, v) :: qs else q :: mapInsert k v qs

/-- Go map read `m[k]`. -/
def mapGet {α : Type} (k : String) : List (String × α) → Option α
  | [] => none
  | q :: qs => if k = q.1 then some q.2 else mapGet k qs

/-- The merge loop `for key, val := range src \x7b dst[key] = val \x7d`. -/
def mergeList {α : Type} (m l : List (String × α)) : List (String × α) :=
  l.foldl (fun acc kv => mapInsert kv.1 kv.2 acc) m

/-- Characters `net/url.QueryEscape` leaves unescaped (alphanumerics and
the marks dash, underscore, dot, tilde), by code point. -/
def isUnreservedQueryChar (c : Char) : Bool :=
  let n := c.toNat
  (65 ≤ n && n ≤ 90) || (97 ≤ n && n ≤ 122) || (48 ≤ n && n ≤ 57) ||
    n = 45 || n = 95 || n = 46 || n = 126

/-- Uppercase hexadecimal digit for a value below 16. -/
def hexDigitChar (n : Nat) : Char :=
  if n < 10 then Char.ofNat (48 + n) else Char.ofNat (55 + n)

/-- Escape one character as `net/url.QueryEscape` does: unreserved characters
pass through, space becomes `+`, anything else becomes `%XX` (code points
below 256; multi-byte runes are out of scope for this model). -/
def queryEscapeChar (c : Char) : List Char :=
  if isUnreservedQueryChar c then [c]
  else if c = ' ' then ['+']
  else ['%', hexDigitChar (c.toNat / 16 % 16), hexDigitChar (c.toNat % 16)]

/-- Percent-escaping of a full string, as `net/url.QueryEscape`. -/
def queryEscape (s : String) : String :=
  String.mk (s.toList.map queryEscapeChar).flatten

/-- Values models `net/url.Values` as built by the facade hooks: one value per
key, added by `params.Add(key, ...)`. -/
abbrev Values := List (String × String)

/-- Values.Encode from `net/url`: keys sorted, each pair rendered as
`escape(k)=escape(v)`, joined with `&`. -/
def valuesEncode (vs : Values) : String :=
  String.intercalate "&"
    ((sortPairs vs).map (fun kv => queryEscape kv.1 ++ "=" ++ queryEscape kv.2))

/-- JSON rendering of one parameter value, as `encoding/json` (strings in this
model carry no characters needing escapes). -/
def jsonEncodeVal : GoVal → String
  | .str s => "\"" ++ s ++ "\""
  | .int n => toString n
  | .bool b => cond b "true" "false"

/-- JSON rendering of a `map[string]interface\x7b\x7d`, as `json.Marshal`:
keys sorted, `"k":v` pairs joined with commas inside braces. -/
def jsonEncodeObj (m : List (String × GoVal)) : String :=
  "\x7b" ++
    String.intercalate ","
      ((sortPairs m).map (fun kv => "\"" ++ kv.1 ++ "\":" ++ jsonEncodeVal kv.2)) ++
    "\x7d"

/-- NetURL models the parts of `net/url.URL` this package touches: everything
before the query, the raw query, and an optional fragment. -/
structure NetURL where
  base : String
  rawQuery : String
  fragment : Option String
  deriving DecidableEq

/-- Split a character list at the first occurrence of `sep`; the second
component is `none` when `sep` does not occur. -/
def splitOnFirst (sep : Char) : List Char → List Char × Option (List Char)
  | [] => ([], none)
  | c :: cs =>
    if c = sep then ([], some cs)
    else
      let r := splitOnFirst sep cs
      (c :: r.1, r.2)

/-- ASCII control characters, which `net/url.Parse` rejects. -/
def hasCtlChar (s : String) : Bool :=
  s.toList.any (fun c => c.toNat < 32 || c.toNat = 127)

/-- Modelling of `net/url.Parse` on the URL shapes this package handles:
reject control characters, then split off fragment and query. -/
def parseURL (rawurl : String) : Except String NetURL :=
  if hasCtlChar rawurl then
    .error "net/url: invalid control character in URL"
  else
    let p1 := splitOnFirst '#' rawurl.toList
    let p2 := splitOnFirst '?' p1.1
    .ok { base := String.mk p2.1,
          rawQuery := (p2.2.map String.mk).getD "",
          fragment := p1.2.map String.mk }

/-- The assignment `netUrl.RawQuery = q`: replace the query, keep base and
fragment. -/
def setRawQuery (u : NetURL) (q : String) : NetURL :=
  { u with rawQuery := q }

/-- Modelling of `(*net/url.URL).String`: base, then `?query` when the raw
query is nonempty, then `#fragment` when a fragment is present. -/
def urlString (u : NetURL) : String :=
  u.base ++
    (if u.rawQuery = "" then "" else "?" ++ u.rawQuery) ++
    (match u.fragment with
     | none => ""
     | some f => "#" ++ f)

/-- TLSConfig models the field of `crypto/tls.Config` this package sets. -/
structure TLSConfig where
  insecureSkipVerify : Bool
  deriving DecidableEq

/-- ILogger is modelled by an opaque identity (the logger methods are only
called for informational traces, which the model elides). -/
abbrev ILogger := Nat

/-- Header map (`map[string]string`); a nil Go header map behaves the same as
an empty one everywhere this package reads or merges it. -/
abbrev HeaderMap := List (String × String)

/-- Parameter map (`map[string]interface\x7b\x7d`). -/
abbrev ParamMap := List (String × GoVal)

/-- ParamCore is the data part of `parameter` from `option.go` (every field
except the hook list, which is split off so hooks can be functions over it).
The `response` capture slot and the logger are modelled by opaque pointer
identities. -/
structure ParamCore where
  url : String
  method : Method
  timeout : Duration
  header : HeaderMap
  param : Option ParamMap
  body : Option String
  tLSClientConfig : TLSConfig
  log : Option ILogger
  deleteUriFlag : Bool
  response : Option Nat
  deriving DecidableEq

/-- Hook is the type of `beforeRequest` callbacks: `func(r *parameter) error`,
with in-place mutation modelled by returning the updated core. -/
abbrev Hook := ParamCore → Except String ParamCore

/-- parameter from `option.go`: the data core plus the `beforeRequest` list. -/
structure Parameter where
  core : ParamCore
  beforeRequest : List Hook

/-- SetBody from `option.go`. -/
def ParamCore.SetBody (p : ParamCore) (body : Option String) : ParamCore :=
  { p with body := body }

/-- HttpOption enumerates the `Option` constructors of `option.go` (the name
`Option` itself is taken by Lean's core type).  `WithParam` takes an optional
list because a nil Go map is observable there; `WithResponse` and
`WithLogger` take the opaque identity of the pointer they install. -/
inductive HttpOption where
  | WithUrl (url : String)
  | WithMethod (method : Method)
  | WithTimeout (timeout : Duration)
  | WithParam (params : Option ParamMap)
  | WithHeader (headers : HeaderMap)
  | WithBeforeRequest (preDeal : Hook)
  | WithTLSClientConfig (c : TLSConfig)
  | WithResponse (response : Nat)
  | WithLogger (log : ILogger)
  | WithDeleteURIFlag (flag : Bool)

/-- apply mirrors each option closure from `option.go`.  `WithTimeout`
multiplies by the seconds unit; `WithParam`/`WithHeader` merge key by key
(ranging over a nil map is a no-op); `WithBeforeRequest` appends. -/
def HttpOption.apply : HttpOption → Parameter → Parameter
  | .WithUrl url, r => { r with core := { r.core with url := url } }
  | .WithMethod method, r => { r with core := { r.core with method := method } }
  | .WithTimeout t, r => { r with core := { r.core with timeout := t * timeSecond } }
  | .WithParam ps, r =>
    { r with core := { r.core with param :=
        match ps with
        | none => r.core.param
        | some l => some (mergeList (r.core.param.getD []) l) } }
  | .WithHeader hs, r => { r with core := { r.core with header := mergeList r.core.header hs } }
  | .WithBeforeRequest preDeal, r => { r with beforeRequest := r.beforeRequest ++ [preDeal] }
  | .WithTLSClientConfig c, r => { r with core := { r.core with tLSClientConfig := c } }
  | .WithResponse resp, r => { r with core := { r.core with response := some resp } }
  | .WithLogger lg, r => { r with core := { r.core with log := some lg } }
  | .WithDeleteURIFlag flag, r => { r with core := { r.core with deleteUriFlag := flag } }

/-- withOpt from `http.go`: apply the options in order (it always returns a
nil error in the source). -/
def withOpt (r : Parameter) (opts : List HttpOption) : Parameter :=
  opts.foldl (fun p o => o.apply p) r

/-- New from `http.go`: the entity's parameter record with its defaults. -/
def New : Parameter :=
  { core := { url := "",
              method := MethodGet,
              timeout := DefaultTimeOut,
              header := [("Connection", "close"), ("Content-Type", "application/json")],
              param := some [],
              body := none,
              tLSClientConfig := { insecureSkipVerify := false },
              log := none,
              deleteUriFlag := true,
              response := none },
    beforeRequest := [] }

/-- Request models the outbound `http.Request` as assembled by `request`:
method, URL, body and the copied header entries. -/
structure Request where
  method : Method
  url : String
  body : Option String
  header : HeaderMap
  deriving DecidableEq

/-- Construction of the outbound request from the record
(`http.NewRequestWithContext` plus the header-copy loop).  Construction
failure (invalid method or URL) is not exercised by the package's own method
constants, so construction is modelled as total. -/
def newRequest (c : ParamCore) : Request :=
  { method := c.method, url := c.url, body := c.body, header := c.header }

/-- The pre-request loop of `request`: run hooks in order, stopping at the
first error; an error carries the core as it stood when that hook ran. -/
def runHooks : List Hook → ParamCore → Except (String × ParamCore) ParamCore
  | [], c => .ok c
  | h :: hs, c =>
    match h c with
    | .error e => .error (e, c)
    | .ok c2 => runHooks hs c2

/-- request from `http.go`, up to the point the outbound request would be
handed to the transport: prepend `WithUrl url`, apply all options to the
entity's record, run the hook chain (a failing hook aborts with a wrapping
error and nothing is constructed), else build the request.  The second
component is the entity's `parameter` as this call leaves it, since the
record is the entity's own and persists across calls. -/
def request (r : Parameter) (url : String) (opts : List HttpOption) :
    Except String Request × Parameter :=
  let r1 := withOpt r (HttpOption.WithUrl url :: opts)
  match runHooks r1.beforeRequest r1.core with
  | .error ec => (.error ("request callback err, " ++ ec.1), { r1 with core := ec.2 })
  | .ok c => (.ok (newRequest c), { r1 with core := c })

/-- The query-building loop shared by the Get and Delete hooks:
`for key, value := range r.param \x7b params.Add(key, transform.Strval(value)) \x7d`
(ranging over a nil map adds nothing). -/
def paramValues (pm : Option ParamMap) : Values :=
  (pm.getD []).map (fun kv => (kv.1, Strval kv.2))

/-- The hook `Get` registers: parse the `url` argument it closed over, encode
the record's current parameters as the query string, and overwrite the
record's url with the result. -/
def getHook (url : String) : Hook := fun r =>
  match parseURL url with
  | .error _ => .error ("get json ma err, param: " ++ url)
  | .ok netUrl =>
    .ok { r with url := urlString { netUrl with rawQuery := valuesEncode (paramValues r.param) } }

/-- The hook `Post` registers: skip when the record's own param map is nil,
else set the body to the JSON encoding of the record's param map
(`json.Marshal` cannot fail on the value shapes `GoVal` covers). -/
def postHook : Hook := fun r =>
  match r.param with
  | none => .ok r
  | some m => .ok (r.SetBody (some (jsonEncodeObj m)))

/-- The hook `Put` registers; its body is identical to the Post hook's. -/
def putHook : Hook := fun r =>
  match r.param with
  | none => .ok r
  | some m => .ok (r.SetBody (some (jsonEncodeObj m)))

/-- The hook `Delete` registers: skip when the record's own param map is nil;
else set the JSON body, and when `deleteUriFlag` is set additionally rebuild
the url from the `url` argument with the parameters as query string. -/
def deleteHook (url : String) : Hook := fun r =>
  match r.param with
  | none => .ok r
  | some m =>
    let r1 := r.SetBody (some (jsonEncodeObj m))
    if r1.deleteUriFlag then
      match parseURL url with
      | .error _ => .error ("get json ma err, param: " ++ url)
      | .ok netUrl =>
        .ok { r1 with url := urlString { netUrl with rawQuery := valuesEncode (paramValues (some m)) } }
    else
      .ok r1

/-- The option list `Get` passes to `request`: the caller's options first,
then the facade-injected method and hook options appended after them. -/
def getOpts (url : String) (opts : List HttpOption) : List HttpOption :=
  opts ++ [HttpOption.WithMethod MethodGet, HttpOption.WithBeforeRequest (getHook url)]

/-- Get on the entity (`(*entity).Get`): `r` is the entity's current
parameter record; the result target plays no part in the build phase. -/
def entityGet (r : Parameter) (url : String) (opts : List HttpOption) :
    Except String Request × Parameter :=
  request r url (getOpts url opts)

/-- The option list `Post` passes to `request`. -/
def postOpts (param : Option ParamMap) (opts : List HttpOption) : List HttpOption :=
  opts ++ [HttpOption.WithMethod MethodPost, HttpOption.WithParam param,
           HttpOption.WithBeforeRequest postHook]

/-- Post on the entity (`(*entity).Post`). -/
def entityPost (r : Parameter) (url : String) (param : Option ParamMap)
    (opts : List HttpOption) : Except String Request × Parameter :=
  request r url (postOpts param opts)

/-- The option list `Put` passes to `request`. -/
def putOpts (param : Option ParamMap) (opts : List HttpOption) : List HttpOption :=
  opts ++ [HttpOption.WithMethod MethodPut, HttpOption.WithParam param,
           HttpOption.WithBeforeRequest putHook]

/-- Put on the entity (`(*entity).Put`). -/
def entityPut (r : Parameter) (url : String) (param : Option ParamMap)
    (opts : List HttpOption) : Except String Request × Parameter :=
  request r url (putOpts param opts)

/-- The option list `Delete` passes to `request`. -/
def deleteOpts (url : String) (param : Option ParamMap) (opts : List HttpOption) :
    List HttpOption :=
  opts ++ [HttpOption.WithMethod MethodDelete, HttpOption.WithParam param,
           HttpOption.WithBeforeRequest (deleteHook url)]

/-- Delete on the entity (`(*entity).Delete`). -/
def entityDelete (r : Parameter) (url : String) (param : Option ParamMap)
    (opts : List HttpOption) : Except String Request × Parameter :=
  request r url (deleteOpts url param opts)

/-- Package-level `Get`: delegates to the shared singleton `defaultHttp`,
whose current parameter record is `st`. -/
def Get (st : Parameter) (url : String) (opts : List HttpOption) :
    Except String Request × Parameter :=
  entityGet st url opts

/-- Package-level `Post` on the shared singleton. -/
def Post (st : Parameter) (url : String) (param : Option ParamMap)
    (opts : List HttpOption) : Except String Request × Parameter :=
  entityPost st url param opts

/-- Package-level `Put` on the shared singleton. -/
def Put (st : Parameter) (url : String) (param : Option ParamMap)
    (opts : List HttpOption) : Except String Request × Parameter :=
  entityPut st url param opts

/-- Package-level `Delete` on the shared singleton. -/
def Delete (st : Parameter) (url : String) (param : Option ParamMap)
    (opts : List HttpOption) : Except String Request × Parameter :=
  entityDelete st url param opts

/-! Response-decoding phase of `request` (`http.go` lines 115-158), modelled
as a function of the fully read response body text and the caller's result
target.  `encoding/json` syntax and the `reflect` view of the target are
modelled executably. -/

/-- Json is the generic JSON value, for the modelled `encoding/json`. -/
inductive Json where
  | null
  | bool (b : Bool)
  | num (n : Int)
  | str (s : String)
  | arr (l : List Json)
  | obj (l : List (String × Json))

/-- Skip JSON whitespace. -/
def skipWs : List Char → List Char
  | [] => []
  | c :: cs => if c = ' ' || c = '\t' || c = '\n' || c = '\r' then skipWs cs else c :: cs

/-- Consume the characters of a string literal up to the closing quote
(escape sequences and control characters are out of scope for this model). -/
def takeStringChars : List Char → Option (List Char × List Char)
  | [] => none
  | c :: cs =>
    if c = '"' then some ([], cs)
    else if c = '\\' || c.toNat < 32 then none
    else (takeStringChars cs).map (fun r => (c :: r.1, r.2))

/-- Consume a maximal run of decimal digits. -/
def takeDigits : List Char → List Char × List Char
  | [] => ([], [])
  | c :: cs =>
    if c.isDigit then
      let r := takeDigits cs
      (c :: r.1, r.2)
    else ([], c :: cs)

/-- Decimal value of a digit run. -/
def digitsToNat (ds : List Char) : Nat :=
  ds.foldl (fun acc c => acc * 10 + (c.toNat - 48)) 0

mutual

/-- Parse one JSON value (fuel-indexed recursive descent; numbers are
modelled as integers). -/
def parseJsonVal : Nat → List Char → Option (Json × List Char)
  | 0, _ => none
  | fuel + 1, cs =>
    match skipWs cs with
    | [] => none
    | c :: rest =>
      if c = '"' then
        match takeStringChars rest with
        | none => none
        | some r => some (Json.str (String.mk r.1), r.2)
      else if c = '\x7b' then
        match skipWs rest with
        | '\x7d' :: rs => some (Json.obj [], rs)
        | rs =>
          match parseObjElems fuel rs with
          | none => none
          | some r => some (Json.obj r.1, r.2)
      else if c = '[' then
        match skipWs rest with
        | ']' :: rs => some (Json.arr [], rs)
        | rs =>
          match parseArrElems fuel rs with
          | none => none
          | some r => some (Json.arr r.1, r.2)
      else if c = 't' then
        match rest with
        | 'r' :: 'u' :: 'e' :: rs => some (Json.bool true, rs)
        | _ => none
      else if c = 'f' then
        match rest with
        | 'a' :: 'l' :: 's' :: 'e' :: rs => some (Json.bool false, rs)
        | _ => none
      else if c = 'n' then
        match rest with
        | 'u' :: 'l' :: 'l' :: rs => some (Json.null, rs)
        | _ => none
      else if c = '-' then
        match takeDigits rest with
        | ([], _) => none
        | (ds, rs) => some (Json.num (-(Int.ofNat (digitsToNat ds))), rs)
      else if c.isDigit then
        let r := takeDigits (c :: rest)
        some (Json.num (Int.ofNat (digitsToNat r.1)), r.2)
      else none

/-- Parse the members of a nonempty JSON object after the opening brace. -/
def parseObjElems : Nat → List Char → Option (List (String × Json) × List Char)
  | 0, _ => none
  | fuel + 1, cs =>
    match skipWs cs with
    | '"' :: rest =>
      match takeStringChars rest with
      | none => none
      | some (key, rs) =>
        match skipWs rs with
        | ':' :: rs2 =>
          match parseJsonVal fuel rs2 with
          | none => none
          | some (v, rs3) =>
            match skipWs rs3 with
            | ',' :: rs4 =>
              match parseObjElems fuel rs4 with
              | none => none
              | some (elems, rs5) => some ((String.mk key, v) :: elems, rs5)
            | '\x7d' :: rs4 => some ([(String.mk key, v)], rs4)
            | _ => none
        | _ => none
    | _ => none

/-- Parse the elements of a nonempty JSON array after the opening bracket. -/
def parseArrElems : Nat → List Char → Option (List Json × List Char)
  | 0, _ => none
  | fuel + 1, cs =>
    match parseJsonVal fuel cs with
    | none => none
    | some (v, rs) =>
      match skipWs rs with
      | ',' :: rs2 =>
        match parseArrElems fuel rs2 with
        | none => none
        | some (elems, rs3) => some (v :: elems, rs3)
      | ']' :: rs2 => some ([v], rs2)
      | _ => none

end

/-- Parse a full JSON document; each recursion level consumes at least one
character, so length-plus-one fuel always suffices. -/
def jsonParse (s : String) : Option Json :=
  match parseJsonVal (s.length + 1) s.toList with
  | some (v, rest) => if skipWs rest = [] then some v else none
  | none => none

/-- Syntactic validity of a body, as `json.Valid`. -/
def jsonValid (s : String) : Bool := (jsonParse s).isSome

/-- TargetState is the `reflect` view of the caller's `result` target that
the decode phase distinguishes: a non-pointer value, a pointer to a
non-string element (an int here), or a pointer to a string element together
with its settability. -/
inductive TargetState where
  | value (v : Json)
  | ptrInt (n : Int)
  | ptrString (canSet : Bool) (s : String)

/-- Modelling of `json.Unmarshal(bodyByte, &result)` on the target shapes of
`TargetState`: a non-pointer target makes the interface itself absorb the
decoded generic value; a typed pointer target decodes into its element and
fails on a type mismatch. -/
def jsonUnmarshal (j : Json) : TargetState → Except String TargetState
  | .value _ => .ok (.value j)
  | .ptrInt _ =>
    match j with
    | .num m => .ok (.ptrInt m)
    | _ => .error "json: cannot unmarshal into Go value of type int"
  | .ptrString canSet _ =>
    match j with
    | .str s => .ok (.ptrString canSet s)
    | _ => .error "json: cannot unmarshal into Go value of type string"

/-- Decode phase of `request` for a non-nil result target (`http.go` lines
124-158): an empty body returns success without touching the target; a valid
JSON body is unmarshalled (errors wrapped); otherwise the reflect decision
tree requires a settable pointer-to-string and assigns the raw body text. -/
def handleBody (bodyByte : String) (t : TargetState) : Except String TargetState :=
  if bodyByte = "" then .ok t
  else
    match jsonParse bodyByte with
    | some j =>
      match jsonUnmarshal j t with
      | .ok t2 => .ok t2
      | .error e => .error ("request json un err, " ++ e)
    | none =>
      match t with
      | .value _ => .error "result must be a pointer"
      | .ptrInt _ => .error "result must be a string"
      | .ptrString false _ => .error "result can not set"
      | .ptrString true _ => .ok (.ptrString true bodyByte)

/-- Response phase for an arbitrary result argument (`http.go` lines
115-158): a nil result target drains the body and succeeds without decoding;
otherwise the body is read in full and decoded by `handleBody`. -/
def responsePhase (result : Option TargetState) (bodyByte : String) :
    Except String (Option TargetState) :=
  match result with
  | none => .ok none
  | some t => (handleBody bodyByte t).map some

/-! Helper lemmas about the byte-wise key order and the map operations. -/

theorem strLtB_asymm : ∀ as bs, strLtB as bs = true → strLtB bs as = false := by
  intro as
  induction as with
  | nil => intro bs h; cases bs <;> simp_all [strLtB]
  | cons a as ih =>
    intro bs h
    cases bs with
    | nil => simp_all [strLtB]
    | cons b bs =>
      simp only [strLtB] at h ⊢
      split at h
      · simp_all
        omega
      · split at h
        · exact absurd h (by simp)
        · have hab : ¬ a.toNat < b.toNat := by assumption
          have hba : ¬ b.toNat < a.toNat := by assumption
          simp [hab, hba]
          exact ih bs h

theorem strLtB_resolve : ∀ cs as bs, strLtB cs as = true →
    strLtB cs bs = true ∨ strLtB bs as = true := by
  intro cs
  induction cs with
  | nil =>
    intro as bs h
    cases as with
    | nil => simp [strLtB] at h
    | cons a as =>
      cases bs with
      | nil => right; simp [strLtB]
      | cons b bs => left; simp [strLtB]
  | cons c cs ih =>
    intro as bs h
    cases as with
    | nil => simp [strLtB] at h
    | cons a as =>
      simp only [strLtB] at h
      cases bs with
      | nil => right; simp [strLtB]
      | cons b bs =>
        simp only [strLtB]
        split at h
        · rename_i hca
          by_cases hcb : c.toNat < b.toNat
          · left; simp [hcb]
          · right
            have hba : b.toNat < a.toNat := by omega
            simp [hba]
        · split at h
          · exact absurd h (by simp)
          · rename_i hca hac
            have hceq : c.toNat = a.toNat := by omega
            by_cases hcb : c.toNat < b.toNat
            · left; simp [hcb]
            · by_cases hbc : b.toNat < c.toNat
              · right
                have hba : b.toNat < a.toNat := by omega
                simp [hba]
              · have h1 : ¬ b.toNat < a.toNat := by omega
                have h2 : ¬ a.toNat < b.toNat := by omega
                simp [hcb, hbc, h1, h2]
                exact ih as bs h

theorem keyLe_total (a b : String) (h : keyLe a b = false) : keyLe b a = true := by
  simp [keyLe] at h ⊢
  exact strLtB_asymm _ _ h

theorem keyLe_trans (a b c : String) (h1 : keyLe a b = true) (h2 : keyLe b c = true) :
    keyLe a c = true := by
  simp [keyLe] at h1 h2 ⊢
  by_contra hca
  simp at hca
  rcases strLtB_resolve _ _ b.toList hca with h | h
  · simp_all
  · simp_all

theorem mem_insertPair {α : Type} (p x : String × α) (l : List (String × α)) :
    x ∈ insertPair p l ↔ x = p ∨ x ∈ l := by
  induction l with
  | nil => simp [insertPair]
  | cons q qs ih =>
    simp only [insertPair]
    split
    · simp [List.mem_cons]
    · simp [List.mem_cons, ih]
      tauto

theorem pairwise_insertPair {α : Type} (p : String × α) (l : List (String × α))
    (h : l.Pairwise (fun x y => keyLe x.1 y.1 = true)) :
    (insertPair p l).Pairwise (fun x y => keyLe x.1 y.1 = true) := by
  induction l with
  | nil => simp [insertPair]
  | cons q qs ih =>
    rcases List.pairwise_cons.mp h with ⟨hq, hqs⟩
    simp only [insertPair]
    split
    · rename_i hc
      refine List.pairwise_cons.mpr ⟨?_, h⟩
      intro x hx
      rcases List.mem_cons.mp hx with rfl | hmem
      · exact hc
      · exact keyLe_trans _ _ _ hc (hq x hmem)
    · rename_i hc
      refine List.pairwise_cons.mpr ⟨?_, ih hqs⟩
      intro x hx
      rcases (mem_insertPair p x qs).mp hx with rfl | hmem
      · exact keyLe_total _ _ (Bool.eq_false_iff.mpr hc)
      · exact hq x hmem

theorem sortPairs_pairwise {α : Type} (l : List (String × α)) :
    (sortPairs l).Pairwise (fun x y => keyLe x.1 y.1 = true) := by
  induction l with
  | nil => simp [sortPairs]
  | cons p ps ih => exact pairwise_insertPair p (sortPairs ps) ih

theorem mapInsert_of_not_mem {α : Type} (k : String) (v : α) :
    ∀ m : List (String × α), k ∉ m.map Prod.fst → mapInsert k v m = m ++ [(k, v)] := by
  intro m
  induction m with
  | nil => intro _; rfl
  | cons q qs ih =>
    intro h
    simp only [List.map_cons, List.mem_cons] at h
    push_neg at h
    simp [mapInsert, h.1, ih h.2]

theorem mapGet_mapInsert_self {α : Type} (k : String) (v : α) :
    ∀ m : List (String × α), mapGet k (mapInsert k v m) = some v := by
  intro m
  induction m with
  | nil => simp [mapInsert, mapGet]
  | cons q qs ih =>
    by_cases h : k = q.1
    · simp [mapInsert, mapGet, h]
    · simp [mapInsert, mapGet, h, ih]

theorem mapGet_mapInsert_ne {α : Type} (k k2 : String) (v : α) (h : k ≠ k2) :
    ∀ m : List (String × α), mapGet k (mapInsert k2 v m) = mapGet k m := by
  intro m
  induction m with
  | nil => simp [mapInsert, mapGet, h]
  | cons q qs ih =>
    by_cases h2 : k2 = q.1
    · subst h2
      simp [mapInsert, mapGet, h]
    · by_cases h3 : k = q.1
      · simp [mapInsert, mapGet, h2, h3]
      · simp [mapInsert, mapGet, h2, h3, ih]

theorem mapGet_mergeList_of_not_mem {α : Type} :
    ∀ (l m : List (String × α)) (k : String), k ∉ l.map Prod.fst →
      mapGet k (mergeList m l) = mapGet k m := by
  intro l
  induction l with
  | nil => intro m k _; rfl
  | cons q qs ih =>
    intro m k h
    simp only [List.map_cons, List.mem_cons] at h
    push_neg at h
    have step : mergeList m (q :: qs) = mergeList (mapInsert q.1 q.2 m) qs := rfl
    rw [step, ih _ _ h.2, mapGet_mapInsert_ne _ _ _ h.1]

theorem mapGet_mergeList_mem {α : Type} :
    ∀ (l m : List (String × α)) (k : String) (v : α),
      (l.map Prod.fst).Nodup → (k, v) ∈ l → mapGet k (mergeList m l) = some v := by
  intro l
  induction l with
  | nil => intro m k v _ h; simp at h
  | cons q qs ih =>
    intro m k v hnd hmem
    rcases List.nodup_cons.mp hnd with ⟨hq, hqs⟩
    have step : mergeList m (q :: qs) = mergeList (mapInsert q.1 q.2 m) qs := rfl
    rcases List.mem_cons.mp hmem with rfl | hmem2
    · rw [step, mapGet_mergeList_of_not_mem _ _ _ hq, mapGet_mapInsert_self]
    · rw [step]
      exact ih _ _ _ hqs hmem2

theorem mergeList_of_disjoint {α : Type} :
    ∀ (l m : List (String × α)),
      (∀ k ∈ l.map Prod.fst, k ∉ m.map Prod.fst) → (l.map Prod.fst).Nodup →
      mergeList m l = m ++ l := by
  intro l
  induction l with
  | nil => intro m _ _; simp [mergeList]
  | cons q qs ih =>
    intro m hdisj hnd
    rcases List.nodup_cons.mp hnd with ⟨hq, hqs⟩
    have h1 : q.1 ∉ m.map Prod.fst := hdisj q.1 (by simp)
    have step : mergeList m (q :: qs) = mergeList (mapInsert q.1 q.2 m) qs := rfl
    rw [step, mapInsert_of_not_mem _ _ _ h1, ih (m ++ [q]) ?_ hqs]
    · simp
    · intro k hk
      simp only [List.map_append, List.mem_append, List.map_cons, List.map_nil,
        List.mem_singleton, not_or]
      refine ⟨hdisj k (by simp [hk]), ?_⟩
      intro hkq
      rw [hkq] at hk
      exact hq hk

theorem mergeList_nil_of_nodup {α : Type} (l : List (String × α))
    (hnd : (l.map Prod.fst).Nodup) : mergeList [] l = l := by
  rw [mergeList_of_disjoint l [] (by simp) hnd]
  simp

theorem withOpt_map_WBR_beforeRequest :
    ∀ (hs : List Hook) (p : Parameter),
      (withOpt p (hs.map HttpOption.WithBeforeRequest)).beforeRequest =
        p.beforeRequest ++ hs := by
  intro hs
  induction hs with
  | nil => intro p; simp [withOpt]
  | cons h hs ih =>
    intro p
    have step : withOpt p ((h :: hs).map HttpOption.WithBeforeRequest) =
        withOpt ((HttpOption.WithBeforeRequest h).apply p) (hs.map HttpOption.WithBeforeRequest) := rfl
    rw [step, ih]
    simp [HttpOption.apply]

theorem request_snd_beforeRequest (r : Parameter) (url : String) (opts : List HttpOption) :
    (request r url opts).snd.beforeRequest =
      (withOpt r (HttpOption.WithUrl url :: opts)).beforeRequest := by
  simp only [request]
  cases runHooks (withOpt r (HttpOption.WithUrl url :: opts)).beforeRequest
      (withOpt r (HttpOption.WithUrl url :: opts)).core <;> rfl

/-! Claim theorems. -/

/-- Claim C9: for every request invocation with a non-nil result target whose
response body is empty, the call returns success (nil error) and the result
target is left completely unmodified (no decoding is attempted). -/
theorem C9_empty_body_no_decode (t : TargetState) :
    responsePhase (some t) "" = .ok (some t) := rfl

/-- Claim C6: for every non-empty response body and every result target: a
syntactically valid JSON body is unmarshalled into the result target (with
unmarshal errors wrapped); otherwise a non-pointer target fails with
"result must be a pointer", a pointer to a non-string element fails with
"result must be a string", an unsettable string fails with
"result can not set", and a settable string receives the raw body text and
the call succeeds. -/
theorem C6_decode_tree (bodyByte : String) (hne : bodyByte ≠ "") :
    (∀ j t, jsonParse bodyByte = some j →
      handleBody bodyByte t =
        (match jsonUnmarshal j t with
         | .ok t2 => .ok t2
         | .error e => .error ("request json un err, " ++ e))) ∧
    (jsonParse bodyByte = none →
      (∀ v, handleBody bodyByte (.value v) = .error "result must be a pointer") ∧
      (∀ n, handleBody bodyByte (.ptrInt n) = .error "result must be a string") ∧
      (∀ s, handleBody bodyByte (.ptrString false s) = .error "result can not set") ∧
      (∀ s, handleBody bodyByte (.ptrString true s) = .ok (.ptrString true bodyByte))) := by
  constructor
  · intro j t hj
    simp [handleBody, hne, hj]
  · intro hj
    refine ⟨fun v => ?_, fun n => ?_, fun s => ?_, fun s => ?_⟩ <;>
      simp [handleBody, hne, hj]

/-- Witness for C6 at the non-JSON body "plain": a settable string pointer
receives the raw text, an int pointer fails with "result must be a string". -/
theorem C6_decode_tree_witness :
    handleBody "plain" (.ptrString true "") = .ok (.ptrString true "plain") ∧
    handleBody "plain" (.ptrInt 0) = .error "result must be a string" := by
  have h := (C6_decode_tree "plain" (by decide)).2 (by rfl)
  exact ⟨h.2.2.2 "", h.2.1 0⟩

/-- Counterexample to claim C2: the facade-injected method option is applied
after the caller-supplied options, so a caller-supplied `WithMethod` does not
override the facade default — a `Get` call with caller option
`WithMethod POST` still dispatches with method GET. -/
theorem C2_counterexample :
    (entityGet New "http://x/a" [HttpOption.WithMethod MethodPost]).fst =
      .ok { method := MethodGet, url := "http://x/a", body := none,
            header := [("Connection", "close"), ("Content-Type", "application/json")] } ∧
    MethodGet ≠ MethodPost := ⟨rfl, by decide⟩

/-- Claim C2 as amended: for every facade call (Get, Post, Put and Delete
alike), the facade-injected default options are appended after the
caller-supplied options (the prepended URL option excepted), so after option
application the record's method is the facade's method regardless of any
caller-supplied option touching it. -/
theorem C2_amended_defaults_after_caller (r : Parameter) (url : String)
    (param : Option ParamMap) (opts : List HttpOption) :
    (withOpt r (HttpOption.WithUrl url :: getOpts url opts)).core.method = MethodGet ∧
    (withOpt r (HttpOption.WithUrl url :: postOpts param opts)).core.method = MethodPost ∧
    (withOpt r (HttpOption.WithUrl url :: putOpts param opts)).core.method = MethodPut ∧
    (withOpt r (HttpOption.WithUrl url :: deleteOpts url param opts)).core.method = MethodDelete := by
  refine ⟨?_, ?_, ?_, ?_⟩ <;>
    simp [withOpt, getOpts, postOpts, putOpts, deleteOpts, List.foldl_append,
      HttpOption.apply]

/-- Counterexample to claim C3: for a nil parameter map the body-building
hook is not skipped — `Post` with nil P on a fresh client sets the body to
the JSON encoding of the record's own (empty, never nil) parameter map. -/
theorem C3_counterexample :
    Except.map Request.body (entityPost New "http://x/b" none []).fst =
      .ok (some "\x7b\x7d") ∧
    "\x7b\x7d" = jsonEncodeObj [] := ⟨rfl, rfl⟩

/-- Claim C3 as amended: for every non-nil parameter map P, Post and Put set
the outbound request body to exactly the JSON encoding of P; for a nil
parameter map the hook still runs, because it tests the record's own
parameter map (never nil after construction) rather than the caller's, and
on a fresh client it sets the body to the JSON encoding of the empty map. -/
theorem C3_amended_post_put_body (url : String) (l : ParamMap)
    (hnd : (l.map Prod.fst).Nodup) :
    Except.map Request.body (entityPost New url (some l) []).fst =
      .ok (some (jsonEncodeObj l)) ∧
    Except.map Request.body (entityPut New url (some l) []).fst =
      .ok (some (jsonEncodeObj l)) ∧
    Except.map Request.body (entityPost New url none []).fst =
      .ok (some (jsonEncodeObj [])) ∧
    Except.map Request.body (entityPut New url none []).fst =
      .ok (some (jsonEncodeObj [])) := by
  refine ⟨?_, ?_, rfl, rfl⟩ <;>
    simp [entityPost, entityPut, postOpts, putOpts, request, withOpt, HttpOption.apply,
      New, runHooks, postHook, putHook, ParamCore.SetBody, newRequest, Except.map,
      mergeList_nil_of_nodup l hnd]

/-- Witness for C3 as amended, at P = single binding of "n" to 1. -/
theorem C3_amended_post_put_body_witness :
    Except.map Request.body
        (entityPost New "http://x/b" (some [("n", GoVal.int 1)]) []).fst =
      .ok (some (jsonEncodeObj [("n", GoVal.int 1)])) :=
  (C3_amended_post_put_body "http://x/b" [("n", GoVal.int 1)] (by decide)).1

/-- Claim C8: when a pre-request hook returns an error, the pipeline aborts
before any request is constructed or dispatched, later hooks in the chain
are not executed (the result is the same for every list of later hooks), and
the returned error wraps the failing hook's error. -/
theorem C8_hook_failure_aborts (r : Parameter) (hr : r.beforeRequest = [])
    (url e : String) (later : List Hook) :
    (request r url
        (HttpOption.WithBeforeRequest (fun _ => Except.error e) ::
          later.map HttpOption.WithBeforeRequest)).fst =
      .error ("request callback err, " ++ e) := by
  have hbr : (withOpt r (HttpOption.WithUrl url ::
      HttpOption.WithBeforeRequest (fun _ => Except.error e) ::
      later.map HttpOption.WithBeforeRequest)).beforeRequest =
      (fun _ => Except.error e) :: later := by
    have step : withOpt r (HttpOption.WithUrl url ::
        HttpOption.WithBeforeRequest (fun _ => Except.error e) ::
        later.map HttpOption.WithBeforeRequest) =
        withOpt ((HttpOption.WithBeforeRequest (fun _ => Except.error e)).apply
          ((HttpOption.WithUrl url).apply r)) (later.map HttpOption.WithBeforeRequest) := rfl
    rw [step, withOpt_map_WBR_beforeRequest]
    simp [HttpOption.apply, hr]
  simp only [request]
  rw [hbr]
  simp [runHooks]

/-- Witness for C8 at a fresh client, the error "boom" and no later hooks. -/
theorem C8_hook_failure_aborts_witness :
    (request New "http://x/a"
        (HttpOption.WithBeforeRequest (fun _ => Except.error "boom") ::
          List.map HttpOption.WithBeforeRequest [])).fst =
      .error ("request callback err, " ++ "boom") :=
  C8_hook_failure_aborts New rfl "http://x/a" "boom" []

/-- The entity's parameter record after a first `Post` call on a fresh
client, at the concrete input used by the C1 counterexample. -/
def afterFirstPost : Parameter :=
  (entityPost New "http://x/b" (some [("a", GoVal.str "1")]) []).snd

/-- Counterexample to claim C1: the options of a call are applied to the
entity's single persistent parameter record, not to a fresh one — after a
first `Post` on a fresh client, the record a second call starts from still
holds the first call's method, body, merged parameter and registered hook;
a second `Get` call accumulates a second hook and even dispatches with the
first call's JSON body and a query built from the first call's parameter. -/
theorem C1_counterexample :
    afterFirstPost.core ≠ New.core ∧
    afterFirstPost.core.method = MethodPost ∧
    afterFirstPost.core.body = some "\x7b\"a\":\"1\"\x7d" ∧
    mapGet "a" (afterFirstPost.core.param.getD []) = some (GoVal.str "1") ∧
    afterFirstPost.beforeRequest.length = 1 ∧
    (entityGet afterFirstPost "http://x/a" []).snd.beforeRequest.length = 2 ∧
    Except.map Request.body (entityGet afterFirstPost "http://x/a" []).fst =
      .ok (some "\x7b\"a\":\"1\"\x7d") ∧
    Except.map Request.url (entityGet afterFirstPost "http://x/a" []).fst =
      .ok "http://x/a?a=1" :=
  ⟨by decide, rfl, rfl, rfl, rfl, rfl, rfl, rfl⟩

/-- Claim C1 as amended: the options of every facade call are applied to the
client's single persistent Configuration Record created by `New`, so state
set by a first `Post` call — its registered hook, method, merged parameters
and body — remains in the record a second call starts from, and the second
call's hook list grows on top of it. -/
theorem C1_amended_shared_record (url url2 : String) (l : ParamMap) :
    ((entityPost New url (some l) []).snd).beforeRequest.length = 1 ∧
    ((entityPost New url (some l) []).snd).core.method = MethodPost ∧
    ((entityPost New url (some l) []).snd).core.param = some (mergeList [] l) ∧
    ((entityPost New url (some l) []).snd).core.body =
      some (jsonEncodeObj (mergeList [] l)) ∧
    (entityGet ((entityPost New url (some l) []).snd) url2 []).snd.beforeRequest.length = 2 := by
  have hs : ((entityPost New url (some l) []).snd).beforeRequest = [postHook] := rfl
  refine ⟨rfl, rfl, rfl, rfl, ?_⟩
  rw [entityGet, request_snd_beforeRequest]
  simp [withOpt, getOpts, HttpOption.apply, hs]

/-- Claim C4: `Delete` with the delete-uses-query-string flag true (the
default) produces a request carrying both a JSON body equal to the JSON
encoding of P and a URL query string equal to the encoded form of P; with
the flag set false it produces only the JSON body and the URL is left as the
url argument, its query string not rewritten. -/
theorem C4_delete_body_and_query (url : String) (nu : NetURL)
    (hp : parseURL url = .ok nu) (l : ParamMap) (hnd : (l.map Prod.fst).Nodup) :
    Except.map Request.body (entityDelete New url (some l) []).fst =
      .ok (some (jsonEncodeObj l)) ∧
    Except.map Request.url (entityDelete New url (some l) []).fst =
      .ok (urlString (setRawQuery nu (valuesEncode (l.map (fun kv => (kv.1, Strval kv.2)))))) ∧
    Except.map Request.body
        (entityDelete New url (some l) [HttpOption.WithDeleteURIFlag false]).fst =
      .ok (some (jsonEncodeObj l)) ∧
    Except.map Request.url
        (entityDelete New url (some l) [HttpOption.WithDeleteURIFlag false]).fst =
      .ok url := by
  refine ⟨?_, ?_, ?_, ?_⟩ <;>
    simp [entityDelete, deleteOpts, request, withOpt, HttpOption.apply, New, runHooks,
      deleteHook, ParamCore.SetBody, newRequest, Except.map, hp, paramValues,
      setRawQuery, mergeList_nil_of_nodup l hnd]

/-- Witness for C4 at url "http://x/a" and P = single binding of "q" to "1". -/
theorem C4_delete_body_and_query_witness :
    Except.map Request.body
        (entityDelete New "http://x/a" (some [("q", GoVal.str "1")]) []).fst =
      .ok (some (jsonEncodeObj [("q", GoVal.str "1")])) ∧
    Except.map Request.url
        (entityDelete New "http://x/a" (some [("q", GoVal.str "1")]) []).fst =
      .ok (urlString (setRawQuery { base := "http://x/a", rawQuery := "", fragment := none } (valuesEncode [("q", "1")]))) := by
  have h := C4_delete_body_and_query "http://x/a"
      { base := "http://x/a", rawQuery := "", fragment := none } rfl
      [("q", GoVal.str "1")] (by decide)
  exact ⟨h.1, h.2.1⟩

/-- Claim C5: `Get` produces a request URL whose query string is the
stable-sorted (by key) percent-encoded form of P, each value rendered
through the string-conversion helper, and sets no body; `valuesEncode`
renders the key-sorted pairs, whose sortedness is stated explicitly. -/
theorem C5_get_query_sorted (url : String) (nu : NetURL)
    (hp : parseURL url = .ok nu) (l : ParamMap) (hnd : (l.map Prod.fst).Nodup) :
    Except.map Request.url (entityGet New url [HttpOption.WithParam (some l)]).fst =
      .ok (urlString (setRawQuery nu (valuesEncode (l.map (fun kv => (kv.1, Strval kv.2)))))) ∧
    (sortPairs (l.map (fun kv => (kv.1, Strval kv.2)))).Pairwise
      (fun x y => keyLe x.1 y.1 = true) ∧
    Except.map Request.body (entityGet New url [HttpOption.WithParam (some l)]).fst =
      .ok none := by
  refine ⟨?_, sortPairs_pairwise _, ?_⟩ <;>
    simp [entityGet, getOpts, request, withOpt, HttpOption.apply, New, runHooks,
      getHook, newRequest, Except.map, hp, paramValues, setRawQuery,
      mergeList_nil_of_nodup l hnd]

/-- Witness for C5 at url "http://x/a" and P with the two keys "b" and "a". -/
theorem C5_get_query_sorted_witness :
    Except.map Request.url
        (entityGet New "http://x/a"
          [HttpOption.WithParam (some [("b", GoVal.int 2), ("a", GoVal.str "x")])]).fst =
      .ok (urlString (setRawQuery { base := "http://x/a", rawQuery := "", fragment := none } (valuesEncode [("b", "2"), ("a", "x")]))) := by
  have h := C5_get_query_sorted "http://x/a"
      { base := "http://x/a", rawQuery := "", fragment := none } rfl
      [("b", GoVal.int 2), ("a", GoVal.str "x")] (by decide)
  exact h.1

/-- Claim C10: the Get hook rebuilds the request URL from the url string
argument originally passed to `Get`: the result depends only on that
argument's base and fragment plus the parameter map (any query string in the
argument is discarded), and is the same for every url installed by a
caller-supplied `WithUrl` option. -/
theorem C10_get_url_from_argument (u uOpt : String) (nu : NetURL)
    (hp : parseURL u = .ok nu) (l : ParamMap) (hnd : (l.map Prod.fst).Nodup) :
    Except.map Request.url
        (entityGet New u [HttpOption.WithParam (some l), HttpOption.WithUrl uOpt]).fst =
      .ok (urlString (setRawQuery nu (valuesEncode (l.map (fun kv => (kv.1, Strval kv.2)))))) := by
  simp [entityGet, getOpts, request, withOpt, HttpOption.apply, New, runHooks,
    getHook, newRequest, Except.map, hp, paramValues, setRawQuery,
    mergeList_nil_of_nodup l hnd]

/-- Witness for C10 at a url argument carrying a query string (discarded)
and a caller WithUrl pointing elsewhere (ignored). -/
theorem C10_get_url_from_argument_witness :
    Except.map Request.url
        (entityGet New "http://x/a?old=1"
          [HttpOption.WithParam (some [("q", GoVal.str "1")]),
           HttpOption.WithUrl "http://y/z"]).fst =
      .ok (urlString (setRawQuery { base := "http://x/a", rawQuery := "old=1", fragment := none } (valuesEncode [("q", "1")]))) := by
  have h := C10_get_url_from_argument "http://x/a?old=1" "http://y/z"
      { base := "http://x/a", rawQuery := "old=1", fragment := none } rfl
      [("q", GoVal.str "1")] (by decide)
  exact h

/-- Claim C7: every scalar-valued option (url, method, timeout, TLS config,
response slot, logger, delete-uri flag) applied twice with the same value
yields the same Configuration Record as applying it once; the mapping-valued
options (params, headers) applied as two merges of key-disjoint maps yield
the record whose map binds every key of either map to its value (their
union). -/
theorem C7_option_idempotence_and_merge (r : Parameter) (u : String) (m : Method)
    (t : Duration) (c : TLSConfig) (resp : Nat) (lg : ILogger) (b : Bool)
    (m0 l1 l2 : ParamMap) (hp : r.core.param = some m0)
    (h1 : (l1.map Prod.fst).Nodup) (h2 : (l2.map Prod.fst).Nodup)
    (hd : ∀ k ∈ l1.map Prod.fst, k ∉ l2.map Prod.fst)
    (g1 g2 : HeaderMap)
    (hh1 : (g1.map Prod.fst).Nodup) (hh2 : (g2.map Prod.fst).Nodup)
    (hhd : ∀ k ∈ g1.map Prod.fst, k ∉ g2.map Prod.fst) :
    ((HttpOption.WithUrl u).apply ((HttpOption.WithUrl u).apply r) =
      (HttpOption.WithUrl u).apply r) ∧
    ((HttpOption.WithMethod m).apply ((HttpOption.WithMethod m).apply r) =
      (HttpOption.WithMethod m).apply r) ∧
    ((HttpOption.WithTimeout t).apply ((HttpOption.WithTimeout t).apply r) =
      (HttpOption.WithTimeout t).apply r) ∧
    ((HttpOption.WithTLSClientConfig c).apply ((HttpOption.WithTLSClientConfig c).apply r) =
      (HttpOption.WithTLSClientConfig c).apply r) ∧
    ((HttpOption.WithResponse resp).apply ((HttpOption.WithResponse resp).apply r) =
      (HttpOption.WithResponse resp).apply r) ∧
    ((HttpOption.WithLogger lg).apply ((HttpOption.WithLogger lg).apply r) =
      (HttpOption.WithLogger lg).apply r) ∧
    ((HttpOption.WithDeleteURIFlag b).apply ((HttpOption.WithDeleteURIFlag b).apply r) =
      (HttpOption.WithDeleteURIFlag b).apply r) ∧
    (∀ k v, (k, v) ∈ l1 ∨ (k, v) ∈ l2 →
      mapGet k ((((HttpOption.WithParam (some l2)).apply
          ((HttpOption.WithParam (some l1)).apply r)).core.param).getD []) = some v) ∧
    (∀ k v, (k, v) ∈ g1 ∨ (k, v) ∈ g2 →
      mapGet k (((HttpOption.WithHeader g2).apply
          ((HttpOption.WithHeader g1).apply r)).core.header) = some v) := by
  refine ⟨rfl, rfl, rfl, rfl, rfl, rfl, rfl, ?_, ?_⟩
  · intro k v hkv
    simp only [HttpOption.apply, hp, Option.getD_some]
    rcases hkv with hmem | hmem
    · have hk2 : k ∉ l2.map Prod.fst := hd k (List.mem_map_of_mem _ hmem)
      rw [mapGet_mergeList_of_not_mem l2 _ k hk2]
      exact mapGet_mergeList_mem l1 _ k v h1 hmem
    · exact mapGet_mergeList_mem l2 _ k v h2 hmem
  · intro k v hkv
    simp only [HttpOption.apply]
    rcases hkv with hmem | hmem
    · have hk2 : k ∉ g2.map Prod.fst := hhd k (List.mem_map_of_mem _ hmem)
      rw [mapGet_mergeList_of_not_mem g2 _ k hk2]
      exact mapGet_mergeList_mem g1 _ k v hh1 hmem
    · exact mapGet_mergeList_mem g2 _ k v hh2 hmem

/-- Witness for C7 at a fresh client, disjoint single-binding maps and
concrete scalar values. -/
theorem C7_option_idempotence_and_merge_witness :
    ((HttpOption.WithUrl "http://y").apply ((HttpOption.WithUrl "http://y").apply New) =
      (HttpOption.WithUrl "http://y").apply New) ∧
    mapGet "a" ((((HttpOption.WithParam (some [("b", GoVal.int 2)])).apply
        ((HttpOption.WithParam (some [("a", GoVal.int 1)])).apply New)).core.param).getD []) =
      some (GoVal.int 1) ∧
    mapGet "Y" (((HttpOption.WithHeader [("Y", "2")]).apply
        ((HttpOption.WithHeader [("X", "1")]).apply New)).core.header) = some "2" := by
  have h := C7_option_idempotence_and_merge New "http://y" MethodPut 5 ⟨true⟩ 1 2 false
      [] [("a", GoVal.int 1)] [("b", GoVal.int 2)] rfl (by decide) (by decide) (by decide)
      [("X", "1")] [("Y", "2")] (by decide) (by decide) (by decide)
  exact ⟨h.1, h.2.2.2.2.2.2.2.1 "a" (GoVal.int 1) (Or.inl (by simp)),
    h.2.2.2.2.2.2.2.2 "Y" "2" (Or.inr (by simp))⟩

end XHttp
